import Mathlib

/-!
Verification of the SubTrans-Ollama subtitle translation pipeline (`app.py`).

Strings are modelled as `List Char` (`Str`).  Python's `str.strip`,
`str.split('\n')`, `'\n'.join` and `re.split(r'\n\n+', ...)` are embedded as
executable functions on `Str`.  The Ollama `chat` call is an oracle
`gen : Str → List Message → Option Str`; `none` models an exception being
raised by the call.  Mutable Python state (the record list, shared between
`subtitles` and its shallow copy `translated_subtitles`) is modelled by
explicit state passing; a separate reference/store model
(`translate_subtitlesS`) captures the object-identity semantics of the
shallow copy at line 86 of `app.py`.
-/

abbrev Str := List Char

/-- The characters Python's `str.strip()` removes: exactly those with
`str.isspace()` true (CPython's `Py_UNICODE_ISSPACE`): U+0009–U+000D,
U+001C–U+001F, U+0020, U+0085, U+00A0, U+1680, U+2000–U+200A, U+2028,
U+2029, U+202F, U+205F and U+3000. -/
def isPySpace (c : Char) : Bool :=
  (0x09 ≤ c.toNat && c.toNat ≤ 0x0d) ||
  (0x1c ≤ c.toNat && c.toNat ≤ 0x20) ||
  c.toNat == 0x85 || c.toNat == 0xa0 || c.toNat == 0x1680 ||
  (0x2000 ≤ c.toNat && c.toNat ≤ 0x200a) ||
  c.toNat == 0x2028 || c.toNat == 0x2029 || c.toNat == 0x202f ||
  c.toNat == 0x205f || c.toNat == 0x3000

/-- Python `str.strip()`: drop whitespace from both ends. -/
def pyStrip (l : Str) : Str :=
  ((l.dropWhile isPySpace).reverse.dropWhile isPySpace).reverse

/-- Python `str.split('\n')`: split at every newline; `"".split('\n') = [""]`. -/
def splitLines : Str → List Str
  | [] => [[]]
  | c :: cs =>
    if c = '\n' then [] :: splitLines cs
    else
      match splitLines cs with
      | [] => [[c]]
      | l :: ls => (c :: l) :: ls

/-- Python `'\n'.join(lines)`. -/
def joinLines : List Str → Str
  | [] => []
  | [l] => l
  | l :: ls => l ++ '\n' :: joinLines ls

/-- Worker for `re.split(r'\n\n+', s)`: `cur` is the current block (reversed),
`pend` counts newline characters seen but not yet classified (a run of two or
more newlines is a separator, a single newline belongs to the block). -/
def sbAux (cur : Str) (pend : Nat) : Str → List Str
  | [] =>
    if 2 ≤ pend then [cur.reverse, []]
    else if pend = 1 then [('\n' :: cur).reverse]
    else [cur.reverse]
  | c :: cs =>
    if c = '\n' then sbAux cur (pend + 1) cs
    else if 2 ≤ pend then cur.reverse :: sbAux [c] 0 cs
    else if pend = 1 then sbAux (c :: '\n' :: cur) 0 cs
    else sbAux (c :: cur) 0 cs

/-- Python `re.split(r'\n\n+', s)`. -/
def splitBlocks (s : Str) : List Str := sbAux [] 0 s

/-- A subtitle record (`{'id': ..., 'timestamp': ..., 'text': ...}`). -/
structure Subtitle where
  id : Str
  timestamp : Str
  text : Str
deriving DecidableEq

instance : Inhabited Subtitle := ⟨⟨[], [], []⟩⟩

/-- Body of the `for block in subtitle_blocks` loop of `parse_srt`
(app.py lines 23–34): strip the block, split into lines, keep it only when
it has at least 3 lines. -/
def parseBlock (block : Str) : Option Subtitle :=
  match splitLines (pyStrip block) with
  | l0 :: l1 :: l2 :: rest => some ⟨l0, l1, joinLines (l2 :: rest)⟩
  | _ => none

/-- `parse_srt` (app.py lines 14–36), on the file's content. -/
def parse_srt (content : Str) : List Subtitle :=
  (splitBlocks (pyStrip content)).filterMap parseBlock

/-- The three lines written for one record by `write_srt` (lines 165–167). -/
def recChunk (s : Subtitle) : Str :=
  s.id ++ '\n' :: (s.timestamp ++ '\n' :: (s.text ++ ['\n']))

/-- `write_srt` (app.py lines 159–167): a separating blank line is written
before every record except the first. -/
def write_srt : List Subtitle → Str
  | [] => []
  | s :: rest => recChunk s ++ rest.flatMap (fun r => '\n' :: recChunk r)

/-- The serialized block of one record, without the trailing newline. -/
def blockOf (s : Subtitle) : Str :=
  s.id ++ '\n' :: (s.timestamp ++ '\n' :: s.text)

/-- `true` iff the list has no two adjacent newline characters
(no blank line when read as text). -/
def noNN : Str → Bool
  | [] => true
  | [_] => true
  | c1 :: c2 :: cs => !(c1 == '\n' && c2 == '\n') && noNN (c2 :: cs)

/-- Records whose serialized block survives `parse_srt`'s stripping and
block-splitting unchanged: `id` starts with a non-whitespace character and
has no newline, `timestamp` is nonempty with no newline, `text` is nonempty,
does not start with a newline, does not end with whitespace, and contains no
two adjacent newlines. -/
def cleanRecord (s : Subtitle) : Bool :=
  (match s.id.head? with | none => false | some c => !isPySpace c) &&
  s.id.all (· ≠ '\n') &&
  (!s.timestamp.isEmpty) &&
  s.timestamp.all (· ≠ '\n') &&
  (match s.text.head? with | none => false | some c => c ≠ '\n') &&
  (match s.text.getLast? with | none => false | some c => !isPySpace c) &&
  noNN s.text

/-- Role of a chat message. -/
inductive Role where
  | system
  | user
  | assistant
deriving DecidableEq

/-- A chat message (`{'role': ..., 'content': ...}`). -/
structure Message where
  role : Role
  content : Str
deriving DecidableEq

/-- A context pair (`{"original": ..., "translated": ...}`). -/
structure CtxPair where
  original : Str
  translated : Str
deriving DecidableEq

/-- The fixed system prompt of `translate_to_persian` (app.py line 46). -/
def sysPrompt : Str :=
  "شما یک مترجم دقیق فارسی هستید. متن را به فارسی روزمره و محاوره‌ای که توسط فارسی‌زبانان استفاده می‌شود ترجمه کنید. از اصطلاحات طبیعی فارسی و لحن گفتگویی استفاده کنید و از ترجمه‌های رسمی یا تحت‌اللفظی خودداری کنید. ترجمه‌های شما باید طوری باشد که انگار از ابتدا به فارسی نوشته شده است. فقط ترجمه فارسی را خروجی دهید - بدون توضیحات، یادداشت‌ها یا متن اصلی.".data

/-- The system message heading every request. -/
def sysMsg : Message := ⟨Role.system, sysPrompt⟩

/-- The fixed instruction template wrapped around a subtitle text
(`f'translate this subtitle to Persian: "{...}"'`). -/
def userTmpl (s : Str) : Str :=
  "translate this subtitle to Persian: \"".data ++ s ++ "\"".data

/-- A user turn carrying a subtitle text in the instruction template. -/
def userTurn (s : Str) : Message := ⟨Role.user, userTmpl s⟩

/-- An assistant turn carrying a prior translation verbatim. -/
def asstTurn (t : Str) : Message := ⟨Role.assistant, t⟩

/-- The message sequence of one request (app.py lines 43–59): system prompt,
then user/assistant turns for each context pair, then the current text. -/
def buildMessages (text : Str) (previous_context : List CtxPair) : List Message :=
  sysMsg ::
    (previous_context.flatMap (fun p => [userTurn p.original, asstTurn p.translated]) ++
      [userTurn text])

/-- `translate_to_persian` (app.py lines 39–66).  The external `chat` call is
the oracle `gen`; `gen model msgs = none` models the call raising an
exception, in which case the original `text` is returned; on success the
response is stripped. -/
def translate_to_persian (gen : Str → List Message → Option Str) (text : Str)
    (model : Str) (previous_context : List CtxPair) : Str :=
  match gen model (buildMessages text previous_context) with
  | some r => pyStrip r
  | none => text

/-- The context built for index `idx` in batch `batch_start`
(app.py lines 103–119).  Because `translated_subtitles` is a shallow copy of
`subtitles` (line 86), both the `original` and the `translated` field are
read from the same shared, already-mutated state `cur`. -/
def contextFor (cur : List Subtitle) (context_size batch_start idx : Nat) :
    List CtxPair :=
  if idx = batch_start ∧ 0 < batch_start then
    (List.range' (batch_start - context_size)
        (batch_start - (batch_start - context_size))).map
      (fun j => ⟨(cur.getD j default).text, (cur.getD j default).text⟩)
  else
    (List.range' (max batch_start (idx - context_size))
        (idx - max batch_start (idx - context_size))).map
      (fun j => ⟨(cur.getD j default).text, (cur.getD j default).text⟩)

/-- Observable events of a run: one `call` per invocation of the translation
service (recording the index, the context supplied and the messages sent),
and one `sleep` per `time.sleep(delay)` cooldown. -/
inductive Event where
  | call (idx : Nat) (ctx : List CtxPair) (msgs : List Message)
  | sleep
deriving DecidableEq

/-- The inner loop of `translate_subtitles` (app.py lines 98–146) over the
index list of one batch, threading the shared record state. -/
def runIdxs (gen : Str → List Message → Option Str) (model : Str)
    (cs b : Nat) : List Nat → List Subtitle → List Subtitle × List Event
  | [], cur => (cur, [])
  | i :: is, cur =>
    let ctx := contextFor cur cs b i
    let msgs := buildMessages ((cur.getD i default).text) ctx
    let cur' := cur.set i
      { cur.getD i default with
        text := translate_to_persian gen ((cur.getD i default).text) model ctx }
    let res := runIdxs gen model cs b is cur'
    (res.1, Event.call i ctx msgs :: res.2)

/-- The outer batch loop of `translate_subtitles` (app.py lines 92–151):
process each batch, then sleep unless the batch was the final one
(`if batch_end < len(subtitles)`). -/
def runBatches (gen : Str → List Message → Option Str) (model : Str)
    (cs bs n : Nat) : List Nat → List Subtitle → List Subtitle × List Event
  | [], cur => (cur, [])
  | b :: rest, cur =>
    let r1 := runIdxs gen model cs b (List.range' b (min (b + bs) n - b)) cur
    let sleepEvs := if min (b + bs) n < n then [Event.sleep] else []
    let r2 := runBatches gen model cs bs n rest r1.1
    (r2.1, r1.2 ++ sleepEvs ++ r2.2)

/-- The batch start indices `range(0, n, bs)` of app.py line 92 (for `bs ≥ 1`). -/
def batchStarts (n bs : Nat) : List Nat :=
  (List.range ((n + bs - 1) / bs)).map (· * bs)

/-- `translate_subtitles` (app.py lines 82–156) together with its event log. -/
def translate_run (gen : Str → List Message → Option Str)
    (subtitles : List Subtitle) (model : Str) (cs bs : Nat) :
    List Subtitle × List Event :=
  runBatches gen model cs bs subtitles.length
    (batchStarts subtitles.length bs) subtitles

/-- `translate_subtitles` (app.py lines 82–156): the returned record list. -/
def translate_subtitles (gen : Str → List Message → Option Str)
    (subtitles : List Subtitle) (model : Str) (cs bs : Nat) : List Subtitle :=
  (translate_run gen subtitles model cs bs).1

/-- Proof-side view of the run: the flat list of `(batch_start, idx)` pairs,
processed sequentially. -/
def runPairs (gen : Str → List Message → Option Str) (model : Str)
    (cs : Nat) : List (Nat × Nat) → List Subtitle → List Subtitle × List Event
  | [], cur => (cur, [])
  | (b, i) :: ps, cur =>
    let ctx := contextFor cur cs b i
    let msgs := buildMessages ((cur.getD i default).text) ctx
    let cur' := cur.set i
      { cur.getD i default with
        text := translate_to_persian gen ((cur.getD i default).text) model ctx }
    let res := runPairs gen model cs ps cur'
    (res.1, Event.call i ctx msgs :: res.2)

/-- The batch start that the driver's loop assigns to index `i` (for `bs ≥ 1`). -/
def bStart (bs i : Nat) : Nat := bs * (i / bs)

/-- The indices the context for index `i` draws from (app.py lines 106–119),
expressed as a function of `i` alone via `bStart`. -/
def ctxIdxList (cs bs i : Nat) : List Nat :=
  if i = bStart bs i ∧ 0 < bStart bs i then
    List.range' (bStart bs i - cs) (bStart bs i - (bStart bs i - cs))
  else
    List.range' (max (bStart bs i) (i - cs))
      (i - max (bStart bs i) (i - cs))

/-- All `call` events of a run carrying index `i`. -/
def callsOf (evs : List Event) (i : Nat) : List (List CtxPair × List Message) :=
  evs.filterMap (fun e =>
    match e with
    | Event.call j c m => if j = i then some (c, m) else none
    | Event.sleep => none)

/-- The context supplied for the translation call of index `i` in a run. -/
def callCtx (gen : Str → List Message → Option Str) (subs : List Subtitle)
    (model : Str) (cs bs i : Nat) : Option (List CtxPair) :=
  ((callsOf (translate_run gen subs model cs bs).2 i).head?).map (·.1)

/-- The messages sent by the translation call of index `i` in a run. -/
def callMsgs (gen : Str → List Message → Option Str) (subs : List Subtitle)
    (model : Str) (cs bs i : Nat) : Option (List Message) :=
  ((callsOf (translate_run gen subs model cs bs).2 i).head?).map (·.2)

/-- Event shapes: events with the data that depends on the oracle erased. -/
inductive EvShape where
  | call (idx : Nat)
  | sleep
deriving DecidableEq

/-- Forget the oracle-dependent data of an event. -/
def shapeOf : Event → EvShape
  | Event.call i _ _ => EvShape.call i
  | Event.sleep => EvShape.sleep

/-- Python `list.copy()` on a list of object references: a value copy of the
reference list (the referenced objects are shared). -/
def listCopy (l : List Nat) : List Nat := l

/-- One context pair in the reference/store model: `original` is read through
`subtitles[j]`, `translated` through `translated_subtitles[j]`
(app.py lines 109–111 and 116–118). -/
def ctxPairS (store : List Subtitle) (subsRefs transRefs : List Nat)
    (j : Nat) : CtxPair :=
  ⟨(store.getD (subsRefs.getD j 0) default).text,
    (store.getD (transRefs.getD j 0) default).text⟩

/-- Inner loop of `translate_subtitles` in the reference/store model: records
live in `store`, the two Python variables hold reference lists. -/
def runIdxsS (gen : Str → List Message → Option Str) (model : Str)
    (cs b : Nat) (subsRefs transRefs : List Nat) :
    List Nat → List Subtitle → List Subtitle
  | [], store => store
  | i :: is, store =>
    let ctx :=
      if i = b ∧ 0 < b then
        (List.range' (b - cs) (b - (b - cs))).map
          (ctxPairS store subsRefs transRefs)
      else
        (List.range' (max b (i - cs)) (i - max b (i - cs))).map
          (ctxPairS store subsRefs transRefs)
    let t := translate_to_persian gen
      ((store.getD (subsRefs.getD i 0) default).text) model ctx
    let store' := store.set (transRefs.getD i 0)
      { store.getD (transRefs.getD i 0) default with text := t }
    runIdxsS gen model cs b subsRefs transRefs is store'

/-- Outer batch loop in the reference/store model. -/
def runBatchesS (gen : Str → List Message → Option Str) (model : Str)
    (cs bs n : Nat) (subsRefs transRefs : List Nat) :
    List Nat → List Subtitle → List Subtitle
  | [], store => store
  | b :: rest, store =>
    let store' := runIdxsS gen model cs b subsRefs transRefs
      (List.range' b (min (b + bs) n - b)) store
    runBatchesS gen model cs bs n subsRefs transRefs rest store'

/-- `translate_subtitles` in the reference/store model: the caller passes a
list of references `subsRefs` into `store`; line 86's
`translated_subtitles = subtitles.copy()` copies the reference list, so both
lists address the same records.  Returns the reference list of the returned
value and the final store. -/
def translate_subtitlesS (gen : Str → List Message → Option Str)
    (subsRefs : List Nat) (store : List Subtitle) (model : Str)
    (cs bs : Nat) : List Nat × List Subtitle :=
  let translatedRefs := listCopy subsRefs
  (translatedRefs,
    runBatchesS gen model cs bs subsRefs.length subsRefs translatedRefs
      (batchStarts subsRefs.length bs) store)

/-- The per-block parse as worded by the specification: a block is kept iff
it has at least 3 non-empty lines, which become id / timestamp / joined text. -/
def parseBlockByNonempty (block : Str) : Option Subtitle :=
  match (splitLines (pyStrip block)).filter (· ≠ []) with
  | l0 :: l1 :: l2 :: rest => some ⟨l0, l1, joinLines (l2 :: rest)⟩
  | _ => none

/-- Blocks joined by the two-newline separator that `write_srt` emits
between records. -/
def sepJoin : List Str → Str
  | [] => []
  | [b] => b
  | b :: bs => b ++ '\n' :: '\n' :: sepJoin bs

/-- The `(batch_start, idx)` pairs processed by the batch loop, flattened. -/
def batchPairs (bs n : Nat) (starts : List Nat) : List (Nat × Nat) :=
  starts.flatMap (fun b =>
    (List.range' b (min (b + bs) n - b)).map (fun i => (b, i)))

/-- The canonical flat pair list of a run: index `i` is processed with batch
start `bStart bs i`. -/
def canonPairs (bs n : Nat) : List (Nat × Nat) :=
  (List.range n).map (fun i => (bStart bs i, i))

/-- The context pair read for index `j` from the shared state `cur`. -/
def textPair (cur : List Subtitle) (j : Nat) : CtxPair :=
  ⟨(cur.getD j default).text, (cur.getD j default).text⟩

/-- The shared record state after the first `m` indices have been processed. -/
def stateAt (gen : Str → List Message → Option Str) (model : Str)
    (cs bs : Nat) (subs : List Subtitle) (m : Nat) : List Subtitle :=
  (runPairs gen model cs ((List.range m).map (fun i => (bStart bs i, i))) subs).1

/-- The context supplied for index `i`, expressed through the run's final
output: pairs of the already-finalized texts of the context indices. -/
def finalCtx (gen : Str → List Message → Option Str) (subs : List Subtitle)
    (model : Str) (cs bs i : Nat) : List CtxPair :=
  (ctxIdxList cs bs i).map
    (textPair (translate_subtitles gen subs model cs bs))

/-- An oracle that always answers with the fixed text `t`. -/
def genConst (t : Str) : Str → List Message → Option Str := fun _ _ => some t

/-- An oracle whose every call raises (returns `none`). -/
def genFail : Str → List Message → Option Str := fun _ _ => none

/-- Fixture: a model identifier. -/
def wModel : Str := "m".data

/-- Fixture: a fixed translation answer. -/
def wX : Str := "X".data

/-- Fixture: two records. -/
def wSubs2 : List Subtitle :=
  [⟨"1".data, "t1".data, "hello".data⟩, ⟨"2".data, "t2".data, "world".data⟩]

/-- Fixture: three records. -/
def wSubs3 : List Subtitle :=
  [⟨"1".data, "t1".data, "one".data⟩, ⟨"2".data, "t2".data, "two".data⟩,
   ⟨"3".data, "t3".data, "three".data⟩]

/-- Fixture: `n` records with distinct texts. -/
def wSubsN (n : Nat) : List Subtitle :=
  (List.range n).map
    (fun i => ⟨[Char.ofNat (65 + i)], "t".data, ['w', Char.ofNat (97 + i)]⟩)

/-- Fixture: a record whose text ends in a space (no blank line in it). -/
def cexRecords : List Subtitle := [⟨"1".data, "t".data, "x ".data⟩]

/-- Fixture: two clean records. -/
def wCleanSubs : List Subtitle :=
  [⟨"1".data, "00:00:01,000 --> 00:00:02,000".data, "Hello\nworld!".data⟩,
   ⟨"2".data, "00:00:02,500 --> 00:00:04,000".data, "Bye.".data⟩]

/-! ### Lemmas about `splitLines` and `joinLines` -/

theorem splitLines_ne_nil (l : Str) : splitLines l ≠ [] := by
  cases l with
  | nil => simp [splitLines]
  | cons c cs =>
    simp only [splitLines]
    split
    · simp
    · split <;> simp

theorem joinLines_splitLines (l : Str) : joinLines (splitLines l) = l := by
  induction l with
  | nil => rfl
  | cons c cs ih =>
    simp only [splitLines]
    split
    · subst c
      rcases h : splitLines cs with _ | ⟨l0, ls⟩
      · exact absurd h (splitLines_ne_nil cs)
      · rw [h] at ih
        simpa [joinLines] using ih
    · rcases h : splitLines cs with _ | ⟨l0, ls⟩
      · exact absurd h (splitLines_ne_nil cs)
      · rw [h] at ih
        cases ls with
        | nil => simpa [joinLines] using ih
        | cons l1 ls' => simpa [joinLines] using ih

theorem splitLines_append (a r : Str) (h : '\n' ∉ a) :
    splitLines (a ++ '\n' :: r) = a :: splitLines r := by
  induction a with
  | nil => simp [splitLines]
  | cons c a' ih =>
    have hc : c ≠ '\n' := fun hc => h (by simp [hc])
    have h' : '\n' ∉ a' := fun hm => h (by simp [hm])
    simp only [List.cons_append, splitLines, if_neg hc]
    rw [show a'.append ('\n' :: r) = a' ++ '\n' :: r from rfl, ih h']


/-! ### Lemmas about `noNN` -/

theorem noNN_cons_cons_iff {c d : Char} {l : Str} :
    noNN (c :: d :: l) = true ↔ ¬(c = '\n' ∧ d = '\n') ∧ noNN (d :: l) = true := by
  simp only [noNN, Bool.and_eq_true, Bool.not_eq_true', Bool.and_eq_false_iff,
    beq_eq_false_iff_ne, ne_eq]
  tauto

theorem noNN_cons {c : Char} {l : Str} (h : noNN (c :: l)) : noNN l := by
  cases l with
  | nil => rfl
  | cons d t => exact (noNN_cons_cons_iff.mp h).2

theorem noNN_pair {c d : Char} {l : Str} (h : noNN (c :: d :: l)) :
    ¬(c = '\n' ∧ d = '\n') :=
  (noNN_cons_cons_iff.mp h).1

theorem noNN_of_not_mem {l : Str} (h : '\n' ∉ l) : noNN l := by
  induction l with
  | nil => rfl
  | cons c cs ih =>
    cases cs with
    | nil => rfl
    | cons d t =>
      have hc : ¬(c = '\n') := fun hc => h (by simp [hc])
      have hm : '\n' ∉ d :: t := fun hm => h (List.mem_cons_of_mem _ hm)
      exact noNN_cons_cons_iff.mpr ⟨fun hp => hc hp.1, ih hm⟩

theorem noNN_glue {a b : Str} (ha : '\n' ∉ a) (hb : b.head? ≠ some '\n')
    (hnb : noNN b) : noNN (a ++ '\n' :: b) := by
  induction a with
  | nil =>
    cases b with
    | nil => rfl
    | cons d t =>
      have hd : ¬(d = '\n') := fun h => hb (by simp [h])
      exact noNN_cons_cons_iff.mpr ⟨fun hp => hd hp.2, hnb⟩
  | cons c a' ih =>
    have hc : ¬(c = '\n') := fun hc => ha (by simp [hc])
    have ha' : '\n' ∉ a' := fun hm => ha (List.mem_cons_of_mem _ hm)
    have htail : noNN (a' ++ '\n' :: b) := ih ha'
    cases a' with
    | nil => exact noNN_cons_cons_iff.mpr ⟨fun hp => hc hp.1, htail⟩
    | cons e a'' => exact noNN_cons_cons_iff.mpr ⟨fun hp => hc hp.1, htail⟩

theorem noNN_snoc {l : Str} {c : Char} (h : noNN l)
    (h2 : ¬(l.getLast? = some '\n' ∧ c = '\n')) : noNN (l ++ [c]) := by
  induction l with
  | nil => rfl
  | cons d t ih =>
    cases t with
    | nil =>
      exact noNN_cons_cons_iff.mpr
        ⟨fun hp => h2 ⟨by simp [hp.1], hp.2⟩, rfl⟩
    | cons e t' =>
      have hrec := ih (noNN_cons h) (fun hp =>
        h2 ⟨by rw [List.getLast?_cons_cons]; exact hp.1, hp.2⟩)
      exact noNN_cons_cons_iff.mpr
        ⟨fun hp => noNN_pair h ⟨hp.1, hp.2⟩, hrec⟩

theorem noNN_reverse {l : Str} (h : noNN l) : noNN l.reverse := by
  induction l with
  | nil => rfl
  | cons c t ih =>
    rw [List.reverse_cons]
    refine noNN_snoc (ih (noNN_cons h)) ?_
    rintro ⟨h1, rfl⟩
    rw [List.getLast?_reverse] at h1
    cases t with
    | nil => simp at h1
    | cons d t' =>
      simp only [List.head?_cons, Option.some.injEq] at h1
      exact noNN_pair h ⟨rfl, h1⟩

theorem noNN_append_right {a b : Str} (h : noNN (a ++ b)) : noNN b := by
  induction a with
  | nil => exact h
  | cons c a' ih => exact ih (noNN_cons (by simpa using h))

theorem noNN_dropWhile (p : Char → Bool) {l : Str} (h : noNN l) :
    noNN (l.dropWhile p) := by
  have heq := List.takeWhile_append_dropWhile (p := p) (l := l)
  exact noNN_append_right (a := l.takeWhile p) (by rwa [heq])

theorem noNN_pyStrip {l : Str} (h : noNN l) : noNN (pyStrip l) :=
  noNN_reverse (noNN_dropWhile _ (noNN_reverse (noNN_dropWhile _ h)))

/-! ### Lemmas about `pyStrip` -/

theorem dropWhile_head_false (p : Char → Bool) (l : Str) (c : Char)
    (h : (l.dropWhile p).head? = some c) : p c = false := by
  induction l with
  | nil => simp [List.dropWhile] at h
  | cons d t ih =>
    rw [List.dropWhile_cons] at h
    split at h
    · exact ih h
    · next hd =>
      simp only [List.head?_cons, Option.some.injEq] at h
      subst h
      simpa using hd

theorem dropWhile_eq_self_of_head (p : Char → Bool) (l : Str)
    (h : ∀ c, l.head? = some c → p c = false) : l.dropWhile p = l := by
  cases l with
  | nil => rfl
  | cons d t =>
    rw [List.dropWhile_cons, if_neg]
    simp [h d rfl]

theorem pyStrip_eq_self (l : Str)
    (h1 : ∀ c, l.head? = some c → isPySpace c = false)
    (h2 : ∀ c, l.getLast? = some c → isPySpace c = false) : pyStrip l = l := by
  unfold pyStrip
  rw [dropWhile_eq_self_of_head _ _ h1,
    dropWhile_eq_self_of_head _ _ (by simpa using h2), List.reverse_reverse]

theorem pyStrip_head (l : Str) (c : Char) (h : (pyStrip l).head? = some c) :
    isPySpace c = false := by
  unfold pyStrip at h
  rw [List.head?_reverse] at h
  -- `h : (dropWhile (reverse (dropWhile l))).getLast? = some c`.
  -- The `dropWhile` keeps a suffix, so this `getLast?` is the `getLast?` of
  -- `reverse (dropWhile l)`, i.e. the `head?` of `dropWhile l`.
  have hsplit := List.takeWhile_append_dropWhile (p := isPySpace)
    (l := (l.dropWhile isPySpace).reverse)
  have hne : (l.dropWhile isPySpace).reverse.dropWhile isPySpace ≠ [] := by
    intro hnil
    rw [hnil] at h
    simp at h
  have hlast : (l.dropWhile isPySpace).reverse.getLast? = some c := by
    rw [← hsplit, List.getLast?_append]
    have : ((l.dropWhile isPySpace).reverse.dropWhile isPySpace).getLast?
        = some c := h
    rw [this]
    rfl
  rw [List.getLast?_reverse] at hlast
  exact dropWhile_head_false isPySpace l c hlast

theorem pyStrip_getLast (l : Str) (c : Char)
    (h : (pyStrip l).getLast? = some c) : isPySpace c = false := by
  unfold pyStrip at h
  rw [List.getLast?_reverse] at h
  exact dropWhile_head_false isPySpace _ c h

theorem pyStrip_append_newline (body : Str)
    (h1 : ∀ c, body.head? = some c → isPySpace c = false)
    (h2 : ∀ c, body.getLast? = some c → isPySpace c = false) :
    pyStrip (body ++ ['\n']) = body := by
  cases hb : body with
  | nil => rfl
  | cons d t =>
    rw [← hb]
    unfold pyStrip
    have hhead : (body ++ ['\n']).head? = some d := by rw [hb]; rfl
    rw [dropWhile_eq_self_of_head _ (body ++ ['\n'])
      (fun c hc => h1 c (by rw [hhead] at hc; rw [hb]; exact hc ▸ rfl))]
    rw [List.reverse_append]
    simp only [List.reverse_cons, List.reverse_nil, List.nil_append,
      List.singleton_append]
    rw [List.dropWhile_cons, if_pos (by decide)]
    rw [dropWhile_eq_self_of_head _ body.reverse
      (fun c hc => h2 c (by rwa [List.head?_reverse] at hc)),
      List.reverse_reverse]

/-! ### Lemmas about `sbAux` / `splitBlocks` -/

theorem sbAux_pend1 (l cur : Str) (h : l.head? ≠ some '\n') :
    sbAux cur 1 l = sbAux ('\n' :: cur) 0 l := by
  cases l with
  | nil => simp [sbAux]
  | cons c cs =>
    have hc : ¬(c = '\n') := fun hc => h (by simp [hc])
    simp [sbAux, hc]

theorem sbAux_block (b : Str) (hn : noNN b) (hl : b.getLast? ≠ some '\n') :
    ∀ cur, sbAux cur 0 b = [cur.reverse ++ b] := by
  induction b with
  | nil => intro cur; simp [sbAux]
  | cons c b' ih =>
    intro cur
    by_cases hc : c = '\n'
    · subst hc
      cases b' with
      | nil => simp at hl
      | cons d b'' =>
        have hd : ¬(d = '\n') := fun hd => noNN_pair hn ⟨rfl, hd⟩
        have h1 : sbAux cur 0 ('\n' :: d :: b'') = sbAux cur 1 (d :: b'') := by
          simp [sbAux]
        rw [h1, sbAux_pend1 _ _ (by simp [hd]),
          ih (noNN_cons hn) (by rwa [List.getLast?_cons_cons] at hl)]
        simp
    · have h1 : sbAux cur 0 (c :: b') = sbAux (c :: cur) 0 b' := by
        simp [sbAux, hc]
      have hl' : b'.getLast? ≠ some '\n' := by
        cases b' with
        | nil => simp
        | cons d b'' => rwa [List.getLast?_cons_cons] at hl
      rw [h1, ih (noNN_cons hn) hl']
      simp

theorem sbAux_sep (b : Str) (hn : noNN b) (hl : b.getLast? ≠ some '\n') :
    ∀ (rest : Str) (cur : Str), rest.head? ≠ some '\n' →
    sbAux cur 0 (b ++ '\n' :: '\n' :: rest) =
      (cur.reverse ++ b) :: sbAux [] 0 rest := by
  induction b with
  | nil =>
    intro rest cur hr
    cases rest with
    | nil => simp [sbAux]
    | cons c cs =>
      have hc : ¬(c = '\n') := fun hc => hr (by simp [hc])
      simp [sbAux, hc]
  | cons c b' ih =>
    intro rest cur hr
    by_cases hc : c = '\n'
    · subst hc
      cases b' with
      | nil => simp at hl
      | cons d b'' =>
        have hd : ¬(d = '\n') := fun hd => noNN_pair hn ⟨rfl, hd⟩
        have h1 : sbAux cur 0 (('\n' :: d :: b'') ++ '\n' :: '\n' :: rest)
            = sbAux cur 1 ((d :: b'') ++ '\n' :: '\n' :: rest) := by
          simp [sbAux]
        rw [h1, sbAux_pend1 _ _ (by simp [hd]),
          ih (noNN_cons hn) (by rwa [List.getLast?_cons_cons] at hl) rest
            ('\n' :: cur) hr]
        simp
    · have h1 : sbAux cur 0 ((c :: b') ++ '\n' :: '\n' :: rest)
          = sbAux (c :: cur) 0 (b' ++ '\n' :: '\n' :: rest) := by
        simp [sbAux, hc]
      have hl' : b'.getLast? ≠ some '\n' := by
        cases b' with
        | nil => simp
        | cons d b'' => rwa [List.getLast?_cons_cons] at hl
      rw [h1, ih (noNN_cons hn) hl' rest (c :: cur) hr]
      simp

theorem sepJoin_head (x : Str) (xs : List Str) (hx : x ≠ []) :
    (sepJoin (x :: xs)).head? = x.head? := by
  cases xs with
  | nil => rfl
  | cons y ys =>
    show (x ++ '\n' :: '\n' :: sepJoin (y :: ys)).head? = x.head?
    rw [List.head?_append]
    cases x with
    | nil => exact absurd rfl hx
    | cons c t => rfl

theorem sepJoin_ne_nil (x : Str) (xs : List Str) (hx : x ≠ []) :
    sepJoin (x :: xs) ≠ [] := by
  cases xs with
  | nil => exact hx
  | cons y ys =>
    show x ++ '\n' :: '\n' :: sepJoin (y :: ys) ≠ []
    simp

theorem sepJoin_getLast (blocks : List Str) (hne : blocks ≠ [])
    (hall : ∀ b ∈ blocks, b ≠ []) :
    ∃ b ∈ blocks, (sepJoin blocks).getLast? = b.getLast? := by
  induction blocks with
  | nil => exact absurd rfl hne
  | cons x xs ih =>
    cases xs with
    | nil => exact ⟨x, by simp, rfl⟩
    | cons y ys =>
      obtain ⟨b, hb, hbeq⟩ := ih (by simp)
        (fun b hb => hall b (List.mem_cons_of_mem _ hb))
      refine ⟨b, List.mem_cons_of_mem _ hb, ?_⟩
      have hbne : b ≠ [] := hall b (List.mem_cons_of_mem _ hb)
      obtain ⟨v, hv⟩ := Option.isSome_iff_exists.mp
        (List.getLast?_isSome.mpr hbne)
      show (x ++ '\n' :: '\n' :: sepJoin (y :: ys)).getLast? = b.getLast?
      rcases hz : sepJoin (y :: ys) with _ | ⟨c, zs⟩
      · exact absurd hz (sepJoin_ne_nil y ys (hall y (by simp)))
      · rw [hz] at hbeq
        rw [List.getLast?_append,
          show ('\n' :: '\n' :: c :: zs).getLast? = (c :: zs).getLast? by
            rw [List.getLast?_cons_cons, List.getLast?_cons_cons],
          hbeq, hv]
        rfl

theorem splitBlocks_sepJoin (blocks : List Str) (hne : blocks ≠ [])
    (hall : ∀ b ∈ blocks, b ≠ [] ∧ noNN b ∧ b.head? ≠ some '\n' ∧
      b.getLast? ≠ some '\n') :
    splitBlocks (sepJoin blocks) = blocks := by
  induction blocks with
  | nil => exact absurd rfl hne
  | cons b bs ih =>
    obtain ⟨hb1, hb2, hb3, hb4⟩ := hall b (by simp)
    cases bs with
    | nil =>
      show sbAux [] 0 b = [b]
      rw [sbAux_block b hb2 hb4 []]
      rfl
    | cons b2 bs' =>
      obtain ⟨h21, h22, h23, h24⟩ := hall b2 (by simp)
      show sbAux [] 0 (b ++ '\n' :: '\n' :: sepJoin (b2 :: bs')) = b :: b2 :: bs'
      rw [sbAux_sep b hb2 hb4 _ []
        (by rw [sepJoin_head b2 bs' h21]; intro hcon; exact h23 hcon)]
      rw [List.reverse_nil, List.nil_append]
      congr 1
      exact ih (by simp) (fun x hx => hall x (List.mem_cons_of_mem _ hx))

/-! ### `write_srt` as joined blocks -/

theorem recChunk_eq (s : Subtitle) : recChunk s = blockOf s ++ ['\n'] := by
  simp [recChunk, blockOf]

theorem write_srt_cons_cons (s r : Subtitle) (rest : List Subtitle) :
    write_srt (s :: r :: rest) = recChunk s ++ '\n' :: write_srt (r :: rest) := by
  simp [write_srt]

theorem write_srt_eq (subs : List Subtitle) (h : subs ≠ []) :
    write_srt subs = sepJoin (subs.map blockOf) ++ ['\n'] := by
  induction subs with
  | nil => exact absurd rfl h
  | cons s rest ih =>
    cases rest with
    | nil => simp [write_srt, sepJoin, recChunk_eq]
    | cons r rest' =>
      rw [write_srt_cons_cons, ih (by simp), recChunk_eq]
      show blockOf s ++ ['\n'] ++ '\n' ::
          (sepJoin ((r :: rest').map blockOf) ++ ['\n'])
        = sepJoin (blockOf s :: (r :: rest').map blockOf) ++ ['\n']
      show _ = (blockOf s ++ '\n' :: '\n' :: sepJoin ((r :: rest').map blockOf))
        ++ ['\n']
      simp

/-! ### Facts about clean records and their blocks -/

theorem cleanRecord_spec (s : Subtitle) (h : cleanRecord s = true) :
    (∃ c, s.id.head? = some c ∧ isPySpace c = false) ∧
    '\n' ∉ s.id ∧ s.timestamp ≠ [] ∧ '\n' ∉ s.timestamp ∧
    s.text.head? ≠ some '\n' ∧
    (∃ c, s.text.getLast? = some c ∧ isPySpace c = false) ∧
    noNN s.text = true := by
  unfold cleanRecord at h
  simp only [Bool.and_eq_true] at h
  obtain ⟨⟨⟨⟨⟨⟨h1, h2⟩, h3⟩, h4⟩, h5⟩, h6⟩, h7⟩ := h
  refine ⟨?_, ?_, ?_, ?_, ?_, ?_, h7⟩
  · rcases hh : s.id.head? with _ | c
    · rw [hh] at h1; simp at h1
    · rw [hh] at h1; exact ⟨c, rfl, by simpa using h1⟩
  · intro hmem
    have := List.all_eq_true.mp h2 _ hmem
    simp at this
  · intro hnil
    rw [hnil] at h3; simp at h3
  · intro hmem
    have := List.all_eq_true.mp h4 _ hmem
    simp at this
  · rcases hh : s.text.head? with _ | c
    · simp
    · rw [hh] at h5
      simp only [Ne, Option.some.injEq]
      intro hc
      subst hc
      simp at h5
  · rcases hh : s.text.getLast? with _ | c
    · rw [hh] at h6; simp at h6
    · rw [hh] at h6; exact ⟨c, rfl, by simpa using h6⟩

theorem nl_isPySpace : isPySpace '\n' = true := by decide

theorem blockOf_getLast (s : Subtitle) (hne : s.text ≠ []) :
    (blockOf s).getLast? = s.text.getLast? := by
  have hb : blockOf s = (s.id ++ ('\n' :: s.timestamp) ++ ['\n']) ++ s.text := by
    simp [blockOf]
  obtain ⟨v, hv⟩ := Option.isSome_iff_exists.mp (List.getLast?_isSome.mpr hne)
  rw [hb, List.getLast?_append, hv]
  rfl

theorem blockOf_facts (s : Subtitle) (h : cleanRecord s = true) :
    blockOf s ≠ [] ∧ noNN (blockOf s) = true ∧
    (∀ c, (blockOf s).head? = some c → isPySpace c = false) ∧
    (∀ c, (blockOf s).getLast? = some c → isPySpace c = false) := by
  obtain ⟨⟨c0, hid, hc0⟩, hidn, hts, htsn, hth, ⟨cl, htl, hcl⟩, htn⟩ :=
    cleanRecord_spec s h
  have htext_ne : s.text ≠ [] := by
    intro hnil; rw [hnil] at htl; simp at htl
  have hhead : (blockOf s).head? = some c0 := by
    unfold blockOf
    rw [List.head?_append, hid]
    rfl
  refine ⟨?_, ?_, ?_, ?_⟩
  · unfold blockOf
    simp
  · unfold blockOf
    refine noNN_glue hidn ?_ ?_
    · rcases hts' : s.timestamp with _ | ⟨d, t⟩
      · exact absurd hts' hts
      · have hd : d ≠ '\n' := by
          intro hd
          exact htsn (by rw [hts', hd]; simp)
        simp [hd]
    · refine noNN_glue htsn hth htn
  · intro c hc
    rw [hhead] at hc
    cases hc
    exact hc0
  · intro c hc
    rw [blockOf_getLast s htext_ne, htl] at hc
    cases hc
    exact hcl

theorem parseBlock_blockOf (s : Subtitle) (h : cleanRecord s = true) :
    parseBlock (blockOf s) = some s := by
  obtain ⟨⟨c0, hid, hc0⟩, hidn, hts, htsn, hth, ⟨cl, htl, hcl⟩, htn⟩ :=
    cleanRecord_spec s h
  obtain ⟨hbne, hbnn, hbh, hbl⟩ := blockOf_facts s h
  have hps : pyStrip (blockOf s) = blockOf s := pyStrip_eq_self _ hbh hbl
  unfold parseBlock
  rw [hps]
  have hsl : splitLines (blockOf s) =
      s.id :: s.timestamp :: splitLines s.text := by
    unfold blockOf
    rw [splitLines_append _ _ hidn, splitLines_append _ _ htsn]
  rw [hsl]
  rcases hst : splitLines s.text with _ | ⟨t0, ts'⟩
  · exact absurd hst (splitLines_ne_nil _)
  · have : joinLines (t0 :: ts') = s.text := by
      rw [← hst, joinLines_splitLines]
    simp [this]

theorem filterMap_some_eq {α : Type} (f : α → Option α) :
    ∀ (l : List α), (∀ x ∈ l, f x = some x) → l.filterMap f = l := by
  intro l
  induction l with
  | nil => intro _; rfl
  | cons x t ih =>
    intro hall
    rw [List.filterMap_cons, hall x (by simp)]
    rw [ih (fun y hy => hall y (List.mem_cons_of_mem _ hy))]

theorem parse_write_srt_clean (subs : List Subtitle)
    (h : ∀ s ∈ subs, cleanRecord s = true) :
    parse_srt (write_srt subs) = subs := by
  rcases hsubs : subs with _ | ⟨s0, rest⟩
  · rfl
  · rw [← hsubs]
    have hne : subs ≠ [] := by rw [hsubs]; simp
    have hblocks : ∀ b ∈ subs.map blockOf, b ≠ [] ∧ noNN b = true ∧
        b.head? ≠ some '\n' ∧ b.getLast? ≠ some '\n' := by
      intro b hb
      obtain ⟨s, hs, rfl⟩ := List.mem_map.mp hb
      obtain ⟨h1, h2, h3, h4⟩ := blockOf_facts s (h s hs)
      refine ⟨h1, h2, ?_, ?_⟩
      · intro hcon
        have := h3 _ hcon
        rw [nl_isPySpace] at this
        cases this
      · intro hcon
        have := h4 _ hcon
        rw [nl_isPySpace] at this
        cases this
    have hmapne : subs.map blockOf ≠ [] := by rw [hsubs]; simp
    have hw : write_srt subs = sepJoin (subs.map blockOf) ++ ['\n'] :=
      write_srt_eq subs hne
    have hstrip : pyStrip (write_srt subs) = sepJoin (subs.map blockOf) := by
      rw [hw]
      refine pyStrip_append_newline _ ?_ ?_
      · intro c hc
        rw [hsubs] at hc
        simp only [List.map_cons] at hc
        rw [sepJoin_head _ _ ((hblocks (blockOf s0)
          (by rw [hsubs]; simp)).1)] at hc
        have := (blockOf_facts s0 (h s0 (by rw [hsubs]; simp))).2.2.1
        exact this c hc
      · intro c hc
        obtain ⟨b, hb, hbeq⟩ := sepJoin_getLast (subs.map blockOf) hmapne
          (fun b hb => (hblocks b hb).1)
        rw [hbeq] at hc
        obtain ⟨s, hs, rfl⟩ := List.mem_map.mp hb
        exact (blockOf_facts s (h s hs)).2.2.2 c hc
    rw [parse_srt, hstrip, splitBlocks_sepJoin _ hmapne hblocks,
      List.filterMap_map]
    exact filterMap_some_eq _ subs
      (fun s hs => parseBlock_blockOf s (h s hs))

/-! ### Shape of the blocks produced by `splitBlocks` -/

theorem noNN_cons_of_ne {c : Char} {l : Str} (hc : c ≠ '\n') (h : noNN l) :
    noNN (c :: l) := by
  cases l with
  | nil => rfl
  | cons d t => exact noNN_cons_cons_iff.mpr ⟨fun hp => hc hp.1, h⟩

theorem noNN_cons_nl {l : Str} (hh : l.head? ≠ some '\n') (h : noNN l) :
    noNN ('\n' :: l) := by
  cases l with
  | nil => rfl
  | cons d t =>
    exact noNN_cons_cons_iff.mpr ⟨fun hp => hh (by simp [hp.2]), h⟩

theorem sbAux_blocks_noNN :
    ∀ (l cur : Str) (pend : Nat),
      (cur = [] ∨ (noNN cur = true ∧ cur.head? ≠ some '\n')) →
      ∀ b ∈ sbAux cur pend l, noNN b = true := by
  intro l
  induction l with
  | nil =>
    intro cur pend hinv b hb
    have hcur : noNN cur = true := by
      rcases hinv with rfl | ⟨h1, _⟩
      · rfl
      · exact h1
    simp only [sbAux] at hb
    split at hb
    · rcases List.mem_cons.mp hb with rfl | hb
      · exact noNN_reverse hcur
      · rw [List.mem_singleton] at hb
        subst hb
        rfl
    · split at hb
      · rw [List.mem_singleton] at hb
        subst hb
        refine noNN_reverse ?_
        rcases hinv with rfl | ⟨h1, h2⟩
        · rfl
        · exact noNN_cons_nl h2 h1
      · rw [List.mem_singleton] at hb
        subst hb
        exact noNN_reverse hcur
  | cons c cs ih =>
    intro cur pend hinv b hb
    have hcur : noNN cur = true := by
      rcases hinv with rfl | ⟨h1, _⟩
      · rfl
      · exact h1
    simp only [sbAux] at hb
    split at hb
    · exact ih cur (pend + 1) hinv b hb
    · next hc =>
      split at hb
      · rcases List.mem_cons.mp hb with rfl | hb
        · exact noNN_reverse hcur
        · exact ih [c] 0 (Or.inr ⟨rfl, by simp [hc]⟩) b hb
      · split at hb
        · refine ih (c :: '\n' :: cur) 0 (Or.inr ⟨?_, by simp [hc]⟩) b hb
          refine noNN_cons_of_ne hc ?_
          rcases hinv with rfl | ⟨h1, h2⟩
          · rfl
          · exact noNN_cons_nl h2 h1
        · refine ih (c :: cur) 0 (Or.inr ⟨?_, by simp [hc]⟩) b hb
          exact noNN_cons_of_ne hc hcur

theorem splitBlocks_noNN (s : Str) : ∀ b ∈ splitBlocks s, noNN b = true :=
  sbAux_blocks_noNN s [] 0 (Or.inl rfl)

/-! ### Non-empty lines of well-shaped blocks -/

theorem splitLines_all_ne_nil :
    ∀ (n : Nat) (l : Str), l.length ≤ n → noNN l = true →
      l.head? ≠ some '\n' → l.getLast? ≠ some '\n' → l ≠ [] →
      ∀ x ∈ splitLines l, x ≠ [] := by
  intro n
  induction n with
  | zero =>
    intro l hlen _ _ _ hne
    exact absurd (List.length_eq_zero.mp (Nat.le_zero.mp hlen)) hne
  | succ n ih =>
    intro l hlen hnn hhead hlast hne x hx
    rcases l with _ | ⟨c, t⟩
    · exact absurd rfl hne
    · have hc : c ≠ '\n' := fun hcon => hhead (by simp [hcon])
      rcases hsp : splitLines t with _ | ⟨hl, rest⟩
      · exact absurd hsp (splitLines_ne_nil t)
      · have hxl : splitLines (c :: t) = (c :: hl) :: rest := by
          simp only [splitLines, if_neg hc, hsp]
        rw [hxl] at hx
        rcases List.mem_cons.mp hx with rfl | hx
        · simp
        · rcases t with _ | ⟨d, t'⟩
          · simp only [splitLines, List.cons.injEq] at hsp
            rw [← hsp.2] at hx
            simp at hx
          · by_cases hd : d = '\n'
            · subst hd
              have ht' : t' ≠ [] := by
                intro hnil
                rw [hnil] at hlast
                simp at hlast
              have hsp' : splitLines ('\n' :: t') = [] :: splitLines t' := by
                simp [splitLines]
              rw [hsp'] at hsp
              have hrest : rest = splitLines t' := by
                injection hsp with h1 h2
                exact h2.symm
              have hlen' : t'.length ≤ n := by
                simp only [List.length_cons] at hlen
                omega
              have hh : t'.head? ≠ some '\n' := by
                rcases t' with _ | ⟨e, t''⟩
                · simp
                · intro hcon
                  simp only [List.head?_cons, Option.some.injEq] at hcon
                  exact noNN_pair (noNN_cons hnn) ⟨rfl, hcon⟩
              have hl2 : t'.getLast? ≠ some '\n' := by
                rcases t' with _ | ⟨e, t''⟩
                · exact absurd rfl ht'
                · rw [List.getLast?_cons_cons, List.getLast?_cons_cons] at hlast
                  exact hlast
              exact ih t' hlen' (noNN_cons (noNN_cons hnn)) hh hl2 ht' x
                (by rw [← hrest]; exact hx)
            · have hlt : (d :: t').length ≤ n := by
                simp only [List.length_cons] at hlen ⊢
                omega
              exact ih (d :: t') hlt (noNN_cons hnn) (by simp [hd])
                (by rwa [List.getLast?_cons_cons] at hlast) (by simp) x
                (by rw [hsp]; exact List.mem_cons_of_mem _ hx)

theorem parseBlock_eq_byNonempty (b : Str) (hn : noNN b = true) :
    parseBlock b = parseBlockByNonempty b := by
  rcases hps : pyStrip b with _ | ⟨c, t⟩
  · unfold parseBlock parseBlockByNonempty
    rw [hps]
    rfl
  · have hnn : noNN (pyStrip b) = true := noNN_pyStrip hn
    have hhead : (pyStrip b).head? ≠ some '\n' := by
      intro hcon
      have := pyStrip_head b '\n' hcon
      rw [nl_isPySpace] at this
      cases this
    have hlast : (pyStrip b).getLast? ≠ some '\n' := by
      intro hcon
      have := pyStrip_getLast b '\n' hcon
      rw [nl_isPySpace] at this
      cases this
    have hne : pyStrip b ≠ [] := by rw [hps]; simp
    have hall : ∀ x ∈ splitLines (pyStrip b), x ≠ [] :=
      splitLines_all_ne_nil (pyStrip b).length (pyStrip b) le_rfl hnn hhead
        hlast hne
    have hfilter : (splitLines (pyStrip b)).filter (· ≠ []) =
        splitLines (pyStrip b) := by
      rw [List.filter_eq_self]
      intro a ha
      simpa using hall a ha
    unfold parseBlock parseBlockByNonempty
    rw [hfilter]
    rfl

theorem filterMap_congr_mem {α β : Type} (f g : α → Option β) :
    ∀ (l : List α), (∀ x ∈ l, f x = g x) → l.filterMap f = l.filterMap g := by
  intro l
  induction l with
  | nil => intro _; rfl
  | cons x t ih =>
    intro hall
    rw [List.filterMap_cons, List.filterMap_cons, hall x (by simp),
      ih (fun y hy => hall y (List.mem_cons_of_mem _ hy))]

theorem parse_srt_by_nonempty (content : Str) :
    parse_srt content =
      (splitBlocks (pyStrip content)).filterMap parseBlockByNonempty := by
  unfold parse_srt
  exact filterMap_congr_mem _ _ _
    (fun b hb => parseBlock_eq_byNonempty b (splitBlocks_noNN _ b hb))

/-! ### Basic state lemmas for the driver -/

theorem getD_set_ne {α : Type} (l : List α) (i j : Nat) (a d : α)
    (h : i ≠ j) : (l.set i a).getD j d = l.getD j d := by
  simp [List.getD_eq_getElem?_getD, List.getElem?_set_ne h]

theorem getD_set_lt {α : Type} (l : List α) (i : Nat) (a d : α)
    (h : i < l.length) : (l.set i a).getD i d = a := by
  simp [List.getD_eq_getElem?_getD, List.getElem?_set_self h]

theorem runIdxs_eq_runPairs (gen : Str → List Message → Option Str)
    (model : Str) (cs b : Nat) :
    ∀ (L : List Nat) (cur : List Subtitle),
      runIdxs gen model cs b L cur =
        runPairs gen model cs (L.map (fun i => (b, i))) cur := by
  intro L
  induction L with
  | nil => intro cur; rfl
  | cons i is ih =>
    intro cur
    simp only [runIdxs, runPairs, List.map_cons]
    rw [ih]

theorem runPairs_append (gen : Str → List Message → Option Str)
    (model : Str) (cs : Nat) :
    ∀ (P Q : List (Nat × Nat)) (cur : List Subtitle),
      runPairs gen model cs (P ++ Q) cur =
        ((runPairs gen model cs Q (runPairs gen model cs P cur).1).1,
         (runPairs gen model cs P cur).2 ++
           (runPairs gen model cs Q (runPairs gen model cs P cur).1).2) := by
  intro P
  induction P with
  | nil => intro Q cur; rfl
  | cons p ps ih =>
    intro Q cur
    obtain ⟨b, i⟩ := p
    simp only [List.cons_append, runPairs]
    rw [show ∀ (z : List (Nat × Nat)), ps.append z = ps ++ z from fun _ => rfl,
      ih]

theorem runPairs_length (gen : Str → List Message → Option Str)
    (model : Str) (cs : Nat) :
    ∀ (P : List (Nat × Nat)) (cur : List Subtitle),
      (runPairs gen model cs P cur).1.length = cur.length := by
  intro P
  induction P with
  | nil => intro cur; rfl
  | cons p ps ih =>
    intro cur
    obtain ⟨b, i⟩ := p
    simp only [runPairs]
    rw [ih, List.length_set]

theorem runPairs_getD_frame (gen : Str → List Message → Option Str)
    (model : Str) (cs : Nat) :
    ∀ (P : List (Nat × Nat)) (cur : List Subtitle) (j : Nat),
      (∀ p ∈ P, p.2 ≠ j) →
      (runPairs gen model cs P cur).1.getD j default = cur.getD j default := by
  intro P
  induction P with
  | nil => intro cur j _; rfl
  | cons p ps ih =>
    intro cur j hall
    obtain ⟨b, i⟩ := p
    simp only [runPairs]
    rw [ih _ _ (fun q hq => hall q (List.mem_cons_of_mem _ hq)),
      getD_set_ne _ _ _ _ _ (hall (b, i) (by simp))]

/-! ### The batch loop as a flat sequential run -/

theorem callsOf_append (a b : List Event) (i : Nat) :
    callsOf (a ++ b) i = callsOf a i ++ callsOf b i := by
  unfold callsOf
  rw [List.filterMap_append]

theorem runBatches_fst (gen : Str → List Message → Option Str) (model : Str)
    (cs bs n : Nat) :
    ∀ (S : List Nat) (cur : List Subtitle),
      (runBatches gen model cs bs n S cur).1 =
        (runPairs gen model cs (batchPairs bs n S) cur).1 := by
  intro S
  induction S with
  | nil => intro cur; rfl
  | cons b rest ih =>
    intro cur
    have hbp : batchPairs bs n (b :: rest) =
        (List.range' b (min (b + bs) n - b)).map (fun i => (b, i)) ++
          batchPairs bs n rest := by
      unfold batchPairs
      rw [List.flatMap_cons]
    simp only [runBatches]
    rw [ih, hbp, runPairs_append, runIdxs_eq_runPairs]

theorem runBatches_calls (gen : Str → List Message → Option Str) (model : Str)
    (cs bs n : Nat) :
    ∀ (S : List Nat) (cur : List Subtitle) (i : Nat),
      callsOf (runBatches gen model cs bs n S cur).2 i =
        callsOf (runPairs gen model cs (batchPairs bs n S) cur).2 i := by
  intro S
  induction S with
  | nil => intro cur i; rfl
  | cons b rest ih =>
    intro cur i
    have hbp : batchPairs bs n (b :: rest) =
        (List.range' b (min (b + bs) n - b)).map (fun i => (b, i)) ++
          batchPairs bs n rest := by
      unfold batchPairs
      rw [List.flatMap_cons]
    simp only [runBatches]
    rw [callsOf_append, callsOf_append, hbp, runPairs_append]
    simp only [callsOf_append]
    rw [ih, runIdxs_eq_runPairs]
    have hsleep : callsOf (if min (b + bs) n < n then [Event.sleep] else []) i
        = [] := by
      split <;> rfl
    rw [hsleep]
    simp

/-! ### The flat pair list of `batchStarts` -/

theorem batchPairs_cons (bs n b : Nat) (rest : List Nat) :
    batchPairs bs n (b :: rest) =
      (List.range' b (min (b + bs) n - b)).map (fun i => (b, i)) ++
        batchPairs bs n rest := by
  unfold batchPairs
  rw [List.flatMap_cons]

theorem batchPairs_seg (bs n : Nat) (hbs : 1 ≤ bs) :
    ∀ (k q : Nat), n ≤ (q + k) * bs → (∀ j, j < k → (q + j) * bs < n) →
      batchPairs bs n ((List.range' q k).map (· * bs)) =
        (List.range' (q * bs) (n - q * bs)).map (fun i => (bStart bs i, i)) := by
  intro k
  induction k with
  | zero =>
    intro q hcov _
    have : n - q * bs = 0 := by
      have : n ≤ q * bs := by simpa using hcov
      omega
    rw [this]
    rfl
  | succ k ih =>
    intro q hcov hstarts
    rw [List.range'_succ, List.map_cons, batchPairs_cons]
    have hq : q * bs < n := by simpa using hstarts 0 (Nat.succ_pos k)
    have hdiv : ∀ i, q * bs ≤ i → i < (q + 1) * bs → bStart bs i = q * bs := by
      intro i h1 h2
      unfold bStart
      rw [Nat.div_eq_of_lt_le h1 h2]
      exact Nat.mul_comm bs q
    cases k with
    | zero =>
      have hmin : min (q * bs + bs) n = n := by
        have : n ≤ q * bs + bs := by
          have := hcov
          rw [Nat.add_mul] at this
          omega
        omega
      rw [hmin]
      have hrest : batchPairs bs n ((List.range' (q + 1) 0).map (· * bs)) = [] := rfl
      rw [hrest, List.append_nil]
      refine List.map_congr_left ?_
      intro i hi
      rw [List.mem_range'_1] at hi
      rw [hdiv i hi.1 (by rw [Nat.add_mul, Nat.one_mul]; omega)]
    | succ k' =>
      have hnext : (q + 1) * bs < n := by
        have := hstarts 1 (by omega)
        simpa using this
      have hmin : min (q * bs + bs) n = q * bs + bs := by
        rw [Nat.add_mul, Nat.one_mul] at hnext
        omega
      rw [hmin]
      have hlen1 : q * bs + bs - q * bs = bs := by omega
      rw [hlen1]
      have hih := ih (q + 1)
        (by rw [show q + 1 + (k' + 1) = q + (k' + 1 + 1) from by omega]; exact hcov)
        (fun j hj => by
          have := hstarts (j + 1) (by omega)
          rw [show q + (j + 1) = q + 1 + j from by omega] at this
          exact this)
      rw [hih]
      have hseg : (List.range' (q * bs) bs).map (fun i => (q * bs, i)) =
          (List.range' (q * bs) bs).map (fun i => (bStart bs i, i)) := by
        refine List.map_congr_left ?_
        intro i hi
        rw [List.mem_range'_1] at hi
        rw [hdiv i hi.1 (by rw [Nat.add_mul, Nat.one_mul]; omega)]
      rw [hseg, show (q + 1) * bs = q * bs + bs from by
          rw [Nat.add_mul, Nat.one_mul], ← List.map_append, List.range'_append_1]
      congr 2
      rw [Nat.add_mul, Nat.one_mul] at hnext
      omega

theorem batchPairs_canon (bs n : Nat) (hbs : 1 ≤ bs) :
    batchPairs bs n (batchStarts n bs) = canonPairs bs n := by
  unfold batchStarts canonPairs
  rcases Nat.eq_zero_or_pos n with rfl | hn
  · have : (0 + bs - 1) / bs = 0 := by
      rw [Nat.zero_add, Nat.div_eq_of_lt (by omega)]
    rw [this]
    rfl
  · set k := (n + bs - 1) / bs with hk
    have hdm := Nat.div_add_mod (n + bs - 1) bs
    have hmod : (n + bs - 1) % bs < bs := Nat.mod_lt _ (by omega)
    set r := (n + bs - 1) % bs with hr
    have hkbs : bs * k + r = n + bs - 1 := hdm
    have hcov : n ≤ (0 + k) * bs := by
      rw [Nat.zero_add, Nat.mul_comm]
      omega
    have hstarts : ∀ j, j < k → (0 + j) * bs < n := by
      intro j hj
      rw [Nat.zero_add]
      have h1 : j * bs ≤ (k - 1) * bs := Nat.mul_le_mul_right bs (by omega)
      have h2 : (k - 1) * bs < n := by
        rw [Nat.sub_mul, Nat.one_mul]
        rw [Nat.mul_comm] at hkbs
        omega
      omega
    rw [List.range_eq_range', batchPairs_seg bs n hbs k 0 hcov hstarts]
    rw [Nat.zero_mul, Nat.sub_zero, List.range_eq_range']

/-! ### Prefix states of the sequential run -/

theorem stateAt_zero (gen : Str → List Message → Option Str) (model : Str)
    (cs bs : Nat) (subs : List Subtitle) :
    stateAt gen model cs bs subs 0 = subs := rfl

theorem stateAt_length (gen : Str → List Message → Option Str) (model : Str)
    (cs bs : Nat) (subs : List Subtitle) (m : Nat) :
    (stateAt gen model cs bs subs m).length = subs.length :=
  runPairs_length gen model cs _ subs

theorem stateAt_succ (gen : Str → List Message → Option Str) (model : Str)
    (cs bs : Nat) (subs : List Subtitle) (m : Nat) :
    stateAt gen model cs bs subs (m + 1) =
      (stateAt gen model cs bs subs m).set m
        { (stateAt gen model cs bs subs m).getD m default with
          text := translate_to_persian gen
            ((stateAt gen model cs bs subs m).getD m default).text model
            (contextFor (stateAt gen model cs bs subs m) cs (bStart bs m) m) } := by
  unfold stateAt
  rw [List.range_succ, List.map_append, runPairs_append]
  rfl

theorem stateAt_frame (gen : Str → List Message → Option Str) (model : Str)
    (cs bs : Nat) (subs : List Subtitle) (m j : Nat) (h : m ≤ j) :
    (stateAt gen model cs bs subs m).getD j default = subs.getD j default := by
  unfold stateAt
  refine runPairs_getD_frame gen model cs _ subs j ?_
  intro p hp
  obtain ⟨i, hi, rfl⟩ := List.mem_map.mp hp
  rw [List.mem_range] at hi
  simp only [ne_eq]
  omega

theorem stateAt_mono (gen : Str → List Message → Option Str) (model : Str)
    (cs bs : Nat) (subs : List Subtitle) (m m' j : Nat) (hj : j < m)
    (hmm : m ≤ m') :
    (stateAt gen model cs bs subs m').getD j default =
      (stateAt gen model cs bs subs m).getD j default := by
  have hsplit : List.range m' = List.range m ++ List.range' m (m' - m) := by
    rw [List.range_eq_range', List.range_eq_range']
    have h2 := List.range'_append_1 0 m (m' - m)
    rw [Nat.zero_add] at h2
    rw [h2]
    congr 1
    omega
  show (runPairs gen model cs ((List.range m').map _) subs).1.getD j default = _
  rw [hsplit, List.map_append, runPairs_append]
  refine runPairs_getD_frame gen model cs _ _ j ?_
  intro p hp
  obtain ⟨i, hi, rfl⟩ := List.mem_map.mp hp
  rw [List.mem_range'_1] at hi
  simp only [ne_eq]
  omega

/-! ### The context indices -/

theorem bStart_le (bs i : Nat) : bStart bs i ≤ i := by
  unfold bStart
  calc bs * (i / bs) = i / bs * bs := Nat.mul_comm _ _
  _ ≤ i := Nat.div_mul_le_self i bs

theorem ctxIdx_lt (cs bs i : Nat) : ∀ j ∈ ctxIdxList cs bs i, j < i := by
  intro j hj
  unfold ctxIdxList at hj
  split at hj
  · next h =>
    rw [List.mem_range'_1] at hj
    omega
  · rw [List.mem_range'_1] at hj
    have hble := bStart_le bs i
    have hmax : max (bStart bs i) (i - cs) ≤ i :=
      max_le hble (Nat.sub_le i cs)
    omega

theorem contextFor_bStart (cur : List Subtitle) (cs bs i : Nat) :
    contextFor cur cs (bStart bs i) i = (ctxIdxList cs bs i).map (textPair cur) := by
  unfold contextFor ctxIdxList textPair
  split
  · rfl
  · rfl

theorem contextFor_stateAt_eq (gen : Str → List Message → Option Str)
    (model : Str) (cs bs : Nat) (subs : List Subtitle) (i : Nat)
    (hi : i ≤ subs.length) :
    contextFor (stateAt gen model cs bs subs i) cs (bStart bs i) i =
      (ctxIdxList cs bs i).map
        (textPair (stateAt gen model cs bs subs subs.length)) := by
  rw [contextFor_bStart]
  refine List.map_congr_left ?_
  intro j hj
  have hji : j < i := ctxIdx_lt cs bs i j hj
  unfold textPair
  rw [stateAt_mono gen model cs bs subs (j + 1) i j (by omega) (by omega),
    stateAt_mono gen model cs bs subs (j + 1) subs.length j (by omega) (by omega)]

/-! ### Characterization of the run's calls and final state -/

theorem runPairs_from_events (gen : Str → List Message → Option Str)
    (model : Str) (cs bs : Nat) (subs : List Subtitle) :
    ∀ (t m : Nat), m + t = subs.length →
      (runPairs gen model cs
        ((List.range' m t).map (fun i => (bStart bs i, i)))
        (stateAt gen model cs bs subs m)).2 =
      (List.range' m t).map (fun i =>
        Event.call i
          ((ctxIdxList cs bs i).map
            (textPair (stateAt gen model cs bs subs subs.length)))
          (buildMessages ((subs.getD i default).text)
            ((ctxIdxList cs bs i).map
              (textPair (stateAt gen model cs bs subs subs.length))))) := by
  intro t
  induction t with
  | zero => intro m _; rfl
  | succ t ih =>
    intro m hm
    rw [List.range'_succ, List.map_cons, List.map_cons]
    simp only [runPairs]
    have hctx : contextFor (stateAt gen model cs bs subs m) cs (bStart bs m) m =
        (ctxIdxList cs bs m).map
          (textPair (stateAt gen model cs bs subs subs.length)) :=
      contextFor_stateAt_eq gen model cs bs subs m (by omega)
    have hcur : (stateAt gen model cs bs subs m).getD m default =
        subs.getD m default :=
      stateAt_frame gen model cs bs subs m m le_rfl
    rw [← stateAt_succ gen model cs bs subs m]
    rw [ih (m + 1) (by omega)]
    rw [hctx, hcur]

theorem callsOf_mapped (c : Nat → List CtxPair) (ms : Nat → List Message) :
    ∀ (t a i : Nat),
      callsOf ((List.range' a t).map (fun j => Event.call j (c j) (ms j))) i =
        if a ≤ i ∧ i < a + t then [(c i, ms i)] else [] := by
  intro t
  induction t with
  | zero =>
    intro a i
    rw [if_neg (by omega)]
    rfl
  | succ t ih =>
    intro a i
    rw [List.range'_succ, List.map_cons]
    unfold callsOf
    rw [List.filterMap_cons]
    by_cases hai : a = i
    · subst hai
      simp only [if_pos rfl]
      have htail := ih (a + 1) a
      rw [if_neg (by omega)] at htail
      unfold callsOf at htail
      rw [htail, if_pos (show a ≤ a ∧ a < a + (t + 1) from ⟨le_rfl, by omega⟩)]
      rfl
    · simp only [if_neg hai]
      have htail := ih (a + 1) i
      unfold callsOf at htail
      rw [htail]
      by_cases hcond : a + 1 ≤ i ∧ i < a + 1 + t
      · rw [if_pos hcond, if_pos (by omega)]
      · rw [if_neg hcond, if_neg (by omega)]

theorem translate_subtitles_stateAt (gen : Str → List Message → Option Str)
    (subs : List Subtitle) (model : Str) (cs bs : Nat) (hbs : 1 ≤ bs) :
    translate_subtitles gen subs model cs bs =
      stateAt gen model cs bs subs subs.length := by
  unfold translate_subtitles translate_run
  rw [runBatches_fst, batchPairs_canon _ _ hbs]
  rfl

theorem calls_charn (gen : Str → List Message → Option Str)
    (subs : List Subtitle) (model : Str) (cs bs i : Nat) (hbs : 1 ≤ bs)
    (hi : i < subs.length) :
    callsOf (translate_run gen subs model cs bs).2 i =
      [(finalCtx gen subs model cs bs i,
        buildMessages ((subs.getD i default).text)
          (finalCtx gen subs model cs bs i))] := by
  unfold translate_run
  rw [runBatches_calls, batchPairs_canon _ _ hbs]
  have hcanon : canonPairs bs subs.length =
      (List.range' 0 subs.length).map (fun i => (bStart bs i, i)) := by
    unfold canonPairs
    rw [List.range_eq_range']
  rw [hcanon]
  have hev := runPairs_from_events gen model cs bs subs subs.length 0 (by omega)
  rw [stateAt_zero] at hev
  rw [hev]
  rw [callsOf_mapped _ _ subs.length 0 i, if_pos (show 0 ≤ i ∧ i < 0 + subs.length from ⟨Nat.zero_le i, by omega⟩)]
  have hfc : finalCtx gen subs model cs bs i =
      (ctxIdxList cs bs i).map
        (textPair (stateAt gen model cs bs subs subs.length)) := by
    unfold finalCtx
    rw [translate_subtitles_stateAt gen subs model cs bs hbs]
  rw [hfc]

theorem callCtx_charn (gen : Str → List Message → Option Str)
    (subs : List Subtitle) (model : Str) (cs bs i : Nat) (hbs : 1 ≤ bs)
    (hi : i < subs.length) :
    callCtx gen subs model cs bs i = some (finalCtx gen subs model cs bs i) := by
  unfold callCtx
  rw [calls_charn gen subs model cs bs i hbs hi]
  rfl

theorem callMsgs_charn (gen : Str → List Message → Option Str)
    (subs : List Subtitle) (model : Str) (cs bs i : Nat) (hbs : 1 ≤ bs)
    (hi : i < subs.length) :
    callMsgs gen subs model cs bs i =
      some (buildMessages ((subs.getD i default).text)
        (finalCtx gen subs model cs bs i)) := by
  unfold callMsgs
  rw [calls_charn gen subs model cs bs i hbs hi]
  rfl

theorem out_getD (gen : Str → List Message → Option Str)
    (subs : List Subtitle) (model : Str) (cs bs i : Nat) (hbs : 1 ≤ bs)
    (hi : i < subs.length) :
    (translate_subtitles gen subs model cs bs).getD i default =
      { subs.getD i default with
        text := translate_to_persian gen ((subs.getD i default).text) model
          (finalCtx gen subs model cs bs i) } := by
  rw [translate_subtitles_stateAt gen subs model cs bs hbs]
  rw [stateAt_mono gen model cs bs subs (i + 1) subs.length i (by omega)
    (by omega)]
  rw [stateAt_succ]
  rw [getD_set_lt _ _ _ _ (by rw [stateAt_length]; exact hi)]
  have hcur : (stateAt gen model cs bs subs i).getD i default =
      subs.getD i default :=
    stateAt_frame gen model cs bs subs i i le_rfl
  have hctx : contextFor (stateAt gen model cs bs subs i) cs (bStart bs i) i =
      (ctxIdxList cs bs i).map
        (textPair (stateAt gen model cs bs subs subs.length)) :=
    contextFor_stateAt_eq gen model cs bs subs i (by omega)
  have hfc : finalCtx gen subs model cs bs i =
      (ctxIdxList cs bs i).map
        (textPair (stateAt gen model cs bs subs subs.length)) := by
    unfold finalCtx
    rw [translate_subtitles_stateAt gen subs model cs bs hbs]
  rw [hcur, hctx, hfc]

/-! ### Skeleton preservation (C2) -/

theorem set_text_skel (cur : List Subtitle) (i : Nat) (t : Str) (j : Nat) :
    ((cur.set i { cur.getD i default with text := t }).getD j default).id
        = (cur.getD j default).id ∧
    ((cur.set i { cur.getD i default with text := t }).getD j default).timestamp
        = (cur.getD j default).timestamp := by
  by_cases hij : i = j
  · subst hij
    by_cases hlen : i < cur.length
    · rw [getD_set_lt _ _ _ _ hlen]
      exact ⟨rfl, rfl⟩
    · rw [List.set_eq_of_length_le (by omega)]
      exact ⟨rfl, rfl⟩
  · rw [getD_set_ne _ _ _ _ _ hij]
    exact ⟨rfl, rfl⟩

theorem runIdxs_skel (gen : Str → List Message → Option Str) (model : Str)
    (cs b : Nat) :
    ∀ (L : List Nat) (cur : List Subtitle),
      (runIdxs gen model cs b L cur).1.length = cur.length ∧
      ∀ j, ((runIdxs gen model cs b L cur).1.getD j default).id
            = (cur.getD j default).id ∧
          ((runIdxs gen model cs b L cur).1.getD j default).timestamp
            = (cur.getD j default).timestamp := by
  intro L
  induction L with
  | nil => intro cur; exact ⟨rfl, fun j => ⟨rfl, rfl⟩⟩
  | cons i is ih =>
    intro cur
    simp only [runIdxs]
    set cur' := cur.set i
      { cur.getD i default with
        text := translate_to_persian gen ((cur.getD i default).text) model
          (contextFor cur cs b i) } with hcur'
    obtain ⟨hlen, hskel⟩ := ih cur'
    refine ⟨by rw [hlen, hcur', List.length_set], fun j => ?_⟩
    obtain ⟨h1, h2⟩ := hskel j
    obtain ⟨h3, h4⟩ := set_text_skel cur i _ j
    rw [hcur'] at h1 h2
    exact ⟨h1.trans h3, h2.trans h4⟩

theorem runBatches_skel (gen : Str → List Message → Option Str) (model : Str)
    (cs bs n : Nat) :
    ∀ (S : List Nat) (cur : List Subtitle),
      (runBatches gen model cs bs n S cur).1.length = cur.length ∧
      ∀ j, ((runBatches gen model cs bs n S cur).1.getD j default).id
            = (cur.getD j default).id ∧
          ((runBatches gen model cs bs n S cur).1.getD j default).timestamp
            = (cur.getD j default).timestamp := by
  intro S
  induction S with
  | nil => intro cur; exact ⟨rfl, fun j => ⟨rfl, rfl⟩⟩
  | cons b rest ih =>
    intro cur
    simp only [runBatches]
    obtain ⟨hlen1, hskel1⟩ := runIdxs_skel gen model cs b
      (List.range' b (min (b + bs) n - b)) cur
    obtain ⟨hlen2, hskel2⟩ := ih
      (runIdxs gen model cs b (List.range' b (min (b + bs) n - b)) cur).1
    refine ⟨hlen2.trans hlen1, fun j => ?_⟩
    obtain ⟨h1, h2⟩ := hskel2 j
    obtain ⟨h3, h4⟩ := hskel1 j
    exact ⟨h1.trans h3, h2.trans h4⟩

/-! ### Event shapes and the cooldown pattern (C8) -/

theorem runIdxs_shape (gen : Str → List Message → Option Str) (model : Str)
    (cs b : Nat) :
    ∀ (L : List Nat) (cur : List Subtitle),
      ((runIdxs gen model cs b L cur).2).map shapeOf = L.map EvShape.call := by
  intro L
  induction L with
  | nil => intro cur; rfl
  | cons i is ih =>
    intro cur
    simp only [runIdxs, List.map_cons]
    rw [ih]
    rfl

theorem runBatches_shape (gen : Str → List Message → Option Str) (model : Str)
    (cs bs n : Nat) :
    ∀ (S : List Nat) (cur : List Subtitle),
      ((runBatches gen model cs bs n S cur).2).map shapeOf =
        S.flatMap (fun b =>
          (List.range' b (min (b + bs) n - b)).map EvShape.call ++
            if min (b + bs) n < n then [EvShape.sleep] else []) := by
  intro S
  induction S with
  | nil => intro cur; rfl
  | cons b rest ih =>
    intro cur
    simp only [runBatches, List.flatMap_cons]
    rw [List.map_append, List.map_append, runIdxs_shape, ih]
    congr 1
    congr 1
    split
    · rfl
    · rfl

theorem intercalate_cons_cons {α : Type} (sep x y : List α) (l : List (List α)) :
    List.intercalate sep (x :: y :: l) = x ++ sep ++ List.intercalate sep (y :: l) := by
  unfold List.intercalate
  rw [List.intersperse_cons_cons]
  simp

theorem flatMap_sleep_intercalate (bs n : Nat) (C : Nat → List EvShape) :
    ∀ (S : List Nat), S ≠ [] →
      (∀ b ∈ S.dropLast, min (b + bs) n < n) →
      (∀ b, S.getLast? = some b → min (b + bs) n = n) →
      S.flatMap (fun b =>
        C b ++ if min (b + bs) n < n then [EvShape.sleep] else []) =
        List.intercalate [EvShape.sleep] (S.map C) := by
  intro S
  induction S with
  | nil => intro h _ _; exact absurd rfl h
  | cons b rest ih =>
    intro _ hdrop hlast
    cases rest with
    | nil =>
      have hb : min (b + bs) n = n := hlast b rfl
      simp only [List.flatMap_cons, List.flatMap_nil, List.append_nil,
        List.map_cons, List.map_nil]
      rw [if_neg (by omega)]
      simp [List.intercalate]
    | cons b2 rest' =>
      have hb : min (b + bs) n < n := by
        refine hdrop b ?_
        rw [List.dropLast_cons_of_ne_nil (by simp)]
        simp
      have hrest : (b2 :: rest').flatMap (fun b =>
          C b ++ if min (b + bs) n < n then [EvShape.sleep] else []) =
          List.intercalate [EvShape.sleep] ((b2 :: rest').map C) := by
        refine ih (by simp) ?_ ?_
        · intro x hx
          refine hdrop x ?_
          rw [List.dropLast_cons_of_ne_nil (by simp)]
          exact List.mem_cons_of_mem _ hx
        · intro x hx
          refine hlast x ?_
          rw [List.getLast?_cons_cons]
          exact hx
      rw [List.flatMap_cons, if_pos hb, hrest, List.map_cons, List.map_cons,
        show (C b :: List.map C (b2 :: rest'))
          = (C b :: C b2 :: List.map C rest') from rfl,
        intercalate_cons_cons]

theorem batchStarts_facts (n bs : Nat) (hbs : 1 ≤ bs) (hn : 1 ≤ n) :
    batchStarts n bs ≠ [] ∧
    (∀ b ∈ (batchStarts n bs).dropLast, min (b + bs) n < n) ∧
    (∀ b, (batchStarts n bs).getLast? = some b → min (b + bs) n = n) := by
  set k := (n + bs - 1) / bs with hk
  have hdm := Nat.div_add_mod (n + bs - 1) bs
  have hmod : (n + bs - 1) % bs < bs := Nat.mod_lt _ (by omega)
  set r := (n + bs - 1) % bs with hr
  have hkbs : bs * k + r = n + bs - 1 := hdm
  have hk1 : 1 ≤ k := by
    rcases Nat.eq_zero_or_pos k with hz | hp
    · rw [hz] at hkbs
      omega
    · exact hp
  have hsplit : batchStarts n bs =
      (List.range (k - 1)).map (· * bs) ++ [(k - 1) * bs] := by
    unfold batchStarts
    rw [← hk, show k = (k - 1) + 1 from by omega, List.range_succ,
      List.map_append]
    simp
  have hlastval : (k - 1) * bs < n := by
    have e1 : (k - 1) * bs = k * bs - bs := by rw [Nat.sub_mul, Nat.one_mul]
    have e2 : k * bs = bs * k := Nat.mul_comm k bs
    omega
  refine ⟨?_, ?_, ?_⟩
  · rw [hsplit]
    simp
  · intro b hb
    rw [hsplit, List.dropLast_concat] at hb
    obtain ⟨j, hj, rfl⟩ := List.mem_map.mp hb
    rw [List.mem_range] at hj
    have h1 : j * bs + bs ≤ (k - 1) * bs := by
      have := Nat.mul_le_mul_right bs (show j + 1 ≤ k - 1 from by omega)
      rw [Nat.add_mul, Nat.one_mul] at this
      exact this
    omega
  · intro b hb
    rw [hsplit, List.getLast?_concat] at hb
    cases hb
    have : (k - 1) * bs + bs = k * bs := by
      rw [Nat.sub_mul, Nat.one_mul]
      have : bs ≤ k * bs := by
        have := Nat.mul_le_mul_right bs hk1
        rwa [Nat.one_mul] at this
      omega
    rw [this]
    have : n ≤ k * bs := by
      rw [Nat.mul_comm]
      omega
    omega

theorem run_shape (gen : Str → List Message → Option Str)
    (subs : List Subtitle) (model : Str) (cs bs : Nat) (hbs : 1 ≤ bs) :
    ((translate_run gen subs model cs bs).2).map shapeOf =
      List.intercalate [EvShape.sleep]
        ((batchStarts subs.length bs).map
          (fun b => (List.range' b (min (b + bs) subs.length - b)).map
            EvShape.call)) := by
  unfold translate_run
  rw [runBatches_shape]
  rcases Nat.eq_zero_or_pos subs.length with hz | hp
  · have hempty : batchStarts subs.length bs = [] := by
      unfold batchStarts
      rw [hz, Nat.div_eq_of_lt (by omega)]
      rfl
    rw [hempty]
    rfl
  · obtain ⟨h1, h2, h3⟩ := batchStarts_facts subs.length bs hbs hp
    exact flatMap_sleep_intercalate bs subs.length _ _ h1 h2 h3

/-! ### The reference/store model agrees with the plain model (C9) -/

theorem range_getD (n j : Nat) (h : j < n) : (List.range n).getD j 0 = j := by
  rw [List.getD_eq_getElem?_getD, List.getElem?_range h]
  rfl

theorem runIdxsS_eq (gen : Str → List Message → Option Str) (model : Str)
    (cs n b : Nat) :
    ∀ (L : List Nat) (store : List Subtitle), (∀ i ∈ L, i < n) →
      runIdxsS gen model cs b (List.range n) (List.range n) L store =
        (runIdxs gen model cs b L store).1 := by
  intro L
  induction L with
  | nil => intro store _; rfl
  | cons i is ih =>
    intro store hall
    have hi : i < n := hall i (by simp)
    have hctx : (if i = b ∧ 0 < b then
        (List.range' (b - cs) (b - (b - cs))).map
          (ctxPairS store (List.range n) (List.range n))
      else
        (List.range' (max b (i - cs)) (i - max b (i - cs))).map
          (ctxPairS store (List.range n) (List.range n)))
        = contextFor store cs b i := by
      unfold contextFor ctxPairS
      split
      · next hcond =>
        refine List.map_congr_left ?_
        intro j hj
        rw [List.mem_range'_1] at hj
        have hjn : j < n := by omega
        rw [range_getD n j hjn]
      · refine List.map_congr_left ?_
        intro j hj
        rw [List.mem_range'_1] at hj
        have hjn : j < n := by omega
        rw [range_getD n j hjn]
    simp only [runIdxsS, runIdxs]
    rw [hctx, range_getD n i hi]
    exact ih _ (fun x hx => hall x (List.mem_cons_of_mem _ hx))

theorem runBatchesS_eq (gen : Str → List Message → Option Str) (model : Str)
    (cs bs n : Nat) :
    ∀ (S : List Nat) (store : List Subtitle),
      runBatchesS gen model cs bs n (List.range n) (List.range n) S store =
        (runBatches gen model cs bs n S store).1 := by
  intro S
  induction S with
  | nil => intro store; rfl
  | cons b rest ih =>
    intro store
    simp only [runBatchesS, runBatches]
    rw [runIdxsS_eq gen model cs n b _ store (by
      intro i hi
      rw [List.mem_range'_1] at hi
      have := Nat.min_le_right (b + bs) n
      omega), ih]

theorem storeModel_eq (gen : Str → List Message → Option Str)
    (subs : List Subtitle) (model : Str) (cs bs : Nat) :
    translate_subtitlesS gen (List.range subs.length) subs model cs bs =
      (List.range subs.length, translate_subtitles gen subs model cs bs) := by
  unfold translate_subtitlesS listCopy translate_subtitles translate_run
  rw [List.length_range]
  show (List.range subs.length,
      runBatchesS gen model cs bs subs.length (List.range subs.length)
        (List.range subs.length) (batchStarts subs.length bs) subs) = _
  rw [runBatchesS_eq]

/-! ### Bounds on the context index list (C10) -/

theorem ctxIdx_len (cs bs i : Nat) : (ctxIdxList cs bs i).length ≤ cs := by
  unfold ctxIdxList
  split
  · rw [List.length_range']
    omega
  · rw [List.length_range']
    have := Nat.le_max_right (bStart bs i) (i - cs)
    omega

theorem ctxIdx_sorted (cs bs i : Nat) :
    List.Pairwise (· < ·) (ctxIdxList cs bs i) := by
  unfold ctxIdxList
  split
  · exact List.pairwise_lt_range' _ _
  · exact List.pairwise_lt_range' _ _

/-! ### Claim theorems -/

/-- C1 (counterexample): the round-trip claim as stated is false.  The single
record `{id := "1", timestamp := "t", text := "x "}` has no blank line inside
its `text`, yet `parse_srt (write_srt _)` drops the trailing space of the
text (the serialized block is stripped on re-parse), so the parse does not
reproduce the records. -/
theorem C1_roundtrip_cex :
    (∀ s ∈ cexRecords, noNN s.text = true) ∧
    parse_srt (write_srt cexRecords) ≠ cexRecords := by
  constructor
  · decide
  · decide

/-- C1 (amended): parsing the serialized output reproduces the record
sequence exactly, provided each record is clean: its `id` starts with a
non-whitespace character and contains no newline, its `timestamp` is
nonempty and contains no newline, and its `text` is nonempty, does not start
with a newline, does not end with a whitespace character, and contains no
two adjacent newlines (no blank line). -/
theorem C1_roundtrip_amended (subs : List Subtitle)
    (h : ∀ s ∈ subs, cleanRecord s = true) :
    parse_srt (write_srt subs) = subs :=
  parse_write_srt_clean subs h

/-- Witness for C1 (amended) on two concrete clean records. -/
theorem C1_roundtrip_amended_witness :
    (∀ s ∈ wCleanSubs, cleanRecord s = true) ∧
    parse_srt (write_srt wCleanSubs) = wCleanSubs :=
  ⟨by decide, C1_roundtrip_amended wCleanSubs (by decide)⟩

/-- C2: for every oracle, record sequence, model and settings,
`translate_subtitles` returns exactly as many records as it was given, and
the record at every position keeps its `id` and `timestamp`; only `text` can
differ. -/
theorem C2_order_count_preservation (gen : Str → List Message → Option Str)
    (subs : List Subtitle) (model : Str) (cs bs : Nat) :
    (translate_subtitles gen subs model cs bs).length = subs.length ∧
    ∀ i, ((translate_subtitles gen subs model cs bs).getD i default).id
          = (subs.getD i default).id ∧
        ((translate_subtitles gen subs model cs bs).getD i default).timestamp
          = (subs.getD i default).timestamp := by
  unfold translate_subtitles translate_run
  obtain ⟨h1, h2⟩ := runBatches_skel gen model cs bs subs.length
    (batchStarts subs.length bs) subs
  exact ⟨h1, h2⟩

/-- C3: if the generation call raises (returns `none`), the translation
client returns its input text unchanged; and in a driver run, an index whose
call failed keeps its original text in the final sequence, while every index
still receives exactly one translation call (processing continues). -/
theorem C3_failure_fallback :
    (∀ (gen : Str → List Message → Option Str) (text model : Str)
        (ctx : List CtxPair),
      gen model (buildMessages text ctx) = none →
      translate_to_persian gen text model ctx = text) ∧
    (∀ (gen : Str → List Message → Option Str) (subs : List Subtitle)
        (model : Str) (cs bs i : Nat) (m : List Message),
      1 ≤ bs → i < subs.length →
      callMsgs gen subs model cs bs i = some m → gen model m = none →
      ((translate_subtitles gen subs model cs bs).getD i default).text
          = (subs.getD i default).text ∧
      ∀ j, j < subs.length →
        (callsOf (translate_run gen subs model cs bs).2 j).length = 1) := by
  constructor
  · intro gen text model ctx h
    unfold translate_to_persian
    rw [h]
  · intro gen subs model cs bs i m hbs hi hm hfail
    have hmsgs := callMsgs_charn gen subs model cs bs i hbs hi
    rw [hm] at hmsgs
    have hmeq : m = buildMessages ((subs.getD i default).text)
        (finalCtx gen subs model cs bs i) := by
      injection hmsgs
    constructor
    · rw [out_getD gen subs model cs bs i hbs hi]
      show translate_to_persian gen ((subs.getD i default).text) model
        (finalCtx gen subs model cs bs i) = _
      unfold translate_to_persian
      rw [← hmeq, hfail]
    · intro j hj
      rw [calls_charn gen subs model cs bs j hbs hj]
      rfl

set_option maxRecDepth 4000 in
/-- Witness for C3: a run over two records with an always-failing oracle
keeps the first record's original text, and both indices are called. -/
theorem C3_failure_fallback_witness :
    ((translate_subtitles genFail wSubs2 wModel 3 1).getD 0 default).text
        = (wSubs2.getD 0 default).text ∧
    ∀ j, j < wSubs2.length →
      (callsOf (translate_run genFail wSubs2 wModel 3 1).2 j).length = 1 :=
  C3_failure_fallback.2 genFail wSubs2 wModel 3 1 0
    (buildMessages "hello".data []) (by decide) (by decide) (by decide) rfl

/-- C4: in a run, an index `i` that starts a batch other than the first
(`i % bs = 0`, `0 < i`) is translated with context drawn from the indices
`[i - cs, i)` — the tail of the previous batch — and each context pair
carries the already-finalized translated text of its index. -/
theorem C4_batch_seam_context (gen : Str → List Message → Option Str)
    (subs : List Subtitle) (model : Str) (cs bs i : Nat) (hbs : 1 ≤ bs)
    (hi : i < subs.length) (hfirst : i % bs = 0) (hpos : 0 < i) :
    callCtx gen subs model cs bs i =
      some ((List.range' (i - cs) (i - (i - cs))).map
        (textPair (translate_subtitles gen subs model cs bs))) := by
  rw [callCtx_charn gen subs model cs bs i hbs hi]
  have hb : bStart bs i = i := by
    unfold bStart
    rw [Nat.mul_comm]
    exact Nat.div_mul_cancel (Nat.dvd_of_mod_eq_zero hfirst)
  congr 1
  unfold finalCtx ctxIdxList
  rw [if_pos ⟨hb.symm, by rw [hb]; exact hpos⟩, hb]

set_option maxRecDepth 8000 in
/-- Witness for C4: with `batch_size = 10`, `context_size = 3` and 11
records, index 10 is called with context from indices 7, 8 and 9. -/
theorem C4_batch_seam_context_witness :
    callCtx (genConst wX) (wSubsN 11) wModel 3 10 10 =
      some ((List.range' (10 - 3) (10 - (10 - 3))).map
        (textPair (translate_subtitles (genConst wX) (wSubsN 11) wModel 3 10))) :=
  C4_batch_seam_context (genConst wX) (wSubsN 11) wModel 3 10 10
    (by decide) (by decide) (by decide) (by decide)

/-- C5: in a run, an index `i` that is not the first index of its batch
(`i % bs ≠ 0`) is translated with context drawn from the indices
`[max (batch_start) (i - cs), i)` of the current batch, each pair carrying
the already-finalized translated text of its index. -/
theorem C5_within_batch_context (gen : Str → List Message → Option Str)
    (subs : List Subtitle) (model : Str) (cs bs i : Nat) (hbs : 1 ≤ bs)
    (hi : i < subs.length) (hnf : ¬ i % bs = 0) :
    callCtx gen subs model cs bs i =
      some ((List.range' (max (bStart bs i) (i - cs))
          (i - max (bStart bs i) (i - cs))).map
        (textPair (translate_subtitles gen subs model cs bs))) := by
  rw [callCtx_charn gen subs model cs bs i hbs hi]
  congr 1
  unfold finalCtx ctxIdxList
  rw [if_neg ?_]
  intro hcond
  refine hnf ?_
  have : i % bs = bStart bs i % bs := by rw [← hcond.1]
  rw [this]
  unfold bStart
  exact Nat.mul_mod_right bs (i / bs)

set_option maxRecDepth 8000 in
/-- Witness for C5: with `batch_size = 10`, `context_size = 3` and 13
records, index 12 is called with context from indices 10 and 11 only. -/
theorem C5_within_batch_context_witness :
    callCtx (genConst wX) (wSubsN 13) wModel 3 10 12 =
      some ((List.range' (max (bStart 10 12) (12 - 3))
          (12 - max (bStart 10 12) (12 - 3))).map
        (textPair (translate_subtitles (genConst wX) (wSubsN 13) wModel 3 10))) :=
  C5_within_batch_context (genConst wX) (wSubsN 13) wModel 3 10 12
    (by decide) (by decide) (by decide)

set_option maxRecDepth 8000 in
/-- C6 (counterexample): the claim that context user turns wrap the
preceding record's original (untranslated) source text is false.  With an
oracle that always answers `"X"`, the call for index 1 sends a user context
turn wrapping `"X"` — the already-translated text of record 0 — although
record 0's original text was `"hello"`.  (`translated_subtitles` is a
shallow copy of `subtitles`, so the `subtitles[j]['text']` read at app.py
line 110/117 sees the mutated, translated text.) -/
theorem C6_messages_cex :
    callMsgs (genConst wX) wSubs2 wModel 3 10 1 =
      some [sysMsg, userTurn wX, asstTurn wX, userTurn "world".data] ∧
    (wSubs2.getD 0 default).text = "hello".data ∧ wX ≠ "hello".data := by
  refine ⟨by decide, by decide, by decide⟩

/-- C6 (amended): every translation call of a run sends: the fixed system
instruction; then, for each context index `j` in chronological order, a user
turn wrapping record `j`'s text at call time — which, because of the
in-place mutation through the shallow copy, is its already-finalized
translation, identical to the content of the following assistant turn —
then that assistant turn; and finally a user turn wrapping the current
record's original text. -/
theorem C6_message_structure (gen : Str → List Message → Option Str)
    (subs : List Subtitle) (model : Str) (cs bs i : Nat) (hbs : 1 ≤ bs)
    (hi : i < subs.length) :
    callMsgs gen subs model cs bs i =
      some (sysMsg ::
        ((ctxIdxList cs bs i).flatMap (fun j =>
          [userTurn
            ((translate_subtitles gen subs model cs bs).getD j default).text,
           asstTurn
            ((translate_subtitles gen subs model cs bs).getD j default).text])
          ++ [userTurn (subs.getD i default).text])) := by
  rw [callMsgs_charn gen subs model cs bs i hbs hi]
  congr 1
  unfold buildMessages finalCtx
  congr 2
  rw [List.flatMap_map]
  rfl

set_option maxRecDepth 8000 in
/-- Witness for C6 (amended) at the second call of a concrete run. -/
theorem C6_message_structure_witness :
    callMsgs (genConst wX) wSubs2 wModel 3 10 1 =
      some (sysMsg ::
        ((ctxIdxList 3 10 1).flatMap (fun j =>
          [userTurn
            ((translate_subtitles (genConst wX) wSubs2 wModel 3 10).getD j
              default).text,
           asstTurn
            ((translate_subtitles (genConst wX) wSubs2 wModel 3 10).getD j
              default).text])
          ++ [userTurn (wSubs2.getD 1 default).text])) :=
  C6_message_structure (genConst wX) wSubs2 wModel 3 10 1 (by decide)
    (by decide)

/-- C7: `parse_srt` equals the per-block rule worded in the specification —
a blank-line-separated block contributes a record iff it has at least three
non-empty lines after trimming (line 1 the id, line 2 the timestamp, the
rest joined as text), and blocks with fewer lines are silently dropped; in
particular the two-line input `"1\n00:00:01,000 --> 00:00:02,000\n"` parses
to no records. -/
theorem C7_malformed_block_dropping (content : Str) :
    parse_srt content =
      (splitBlocks (pyStrip content)).filterMap parseBlockByNonempty ∧
    parse_srt ("1\n00:00:01,000 --> 00:00:02,000\n".data) = [] :=
  ⟨parse_srt_by_nonempty content, by decide⟩

/-- C8: the run's event stream is the batches' call events joined by exactly
one sleep between consecutive batches — one cooldown after every batch
except the final one, and none after the final batch. -/
theorem C8_cooldown_pattern (gen : Str → List Message → Option Str)
    (subs : List Subtitle) (model : Str) (cs bs : Nat) (hbs : 1 ≤ bs) :
    ((translate_run gen subs model cs bs).2).map shapeOf =
      List.intercalate [EvShape.sleep]
        ((batchStarts subs.length bs).map
          (fun b => (List.range' b (min (b + bs) subs.length - b)).map
            EvShape.call)) :=
  run_shape gen subs model cs bs hbs

set_option maxRecDepth 8000 in
/-- Witness for C8: three records with `batch_size = 2` produce calls 0, 1,
one sleep, then call 2 — and no trailing sleep. -/
theorem C8_cooldown_pattern_witness :
    ((translate_run (genConst wX) wSubs3 wModel 3 2).2).map shapeOf =
      [EvShape.call 0, EvShape.call 1, EvShape.sleep, EvShape.call 2] := by
  rw [C8_cooldown_pattern (genConst wX) wSubs3 wModel 3 2 (by decide)]
  decide

/-- C9: in the reference/store model of Python's object semantics,
`translate_subtitles` returns the reference list produced by
`subtitles.copy()` — the very same record objects as the input list — and
the store reachable through the caller's input references ends up holding
exactly the records of the plain model's output: the input sequence's text
fields hold the translated texts after the call. -/
theorem C9_shallow_copy_mutation (gen : Str → List Message → Option Str)
    (subs : List Subtitle) (model : Str) (cs bs : Nat) :
    (translate_subtitlesS gen (List.range subs.length) subs model cs bs).1
        = List.range subs.length ∧
    (translate_subtitlesS gen (List.range subs.length) subs model cs bs).2
        = translate_subtitles gen subs model cs bs := by
  have h := storeModel_eq gen subs model cs bs
  exact ⟨by rw [h], by rw [h]⟩

/-- C10: the context list built for a call is the pairs of the context index
list, which holds at most `context_size` indices, is strictly increasing,
and mentions only indices below the one being translated. -/
theorem C10_context_invariants (cur : List Subtitle) (cs bs i : Nat)
    (hcs : 1 ≤ cs) (hbs : 1 ≤ bs) :
    contextFor cur cs (bStart bs i) i =
        (ctxIdxList cs bs i).map (textPair cur) ∧
    (ctxIdxList cs bs i).length ≤ cs ∧
    List.Pairwise (· < ·) (ctxIdxList cs bs i) ∧
    ∀ j ∈ ctxIdxList cs bs i, j < i :=
  ⟨contextFor_bStart cur cs bs i, ctxIdx_len cs bs i, ctxIdx_sorted cs bs i,
    ctxIdx_lt cs bs i⟩

/-- Witness for C10 at `context_size = 3`, `batch_size = 10`, index 12. -/
theorem C10_context_invariants_witness :
    contextFor (wSubsN 13) 3 (bStart 10 12) 12 =
        (ctxIdxList 3 10 12).map (textPair (wSubsN 13)) ∧
    (ctxIdxList 3 10 12).length ≤ 3 ∧
    List.Pairwise (· < ·) (ctxIdxList 3 10 12) ∧
    ∀ j ∈ ctxIdxList 3 10 12, j < 12 :=
  C10_context_invariants (wSubsN 13) 3 10 12 (by decide) (by decide)
